import Mathlib

/-!
Verification of the Gomoku board and win-checker core of this repository
(`gomoku_board.py`, `win_checker.py`): the 15×15 board with its
letter/number coordinate system, move validation and placement, win
detection (five or more in a row through the just-played cell) and
winning-line extraction.  The board grid is embedded as a total function
on integer array indices (only indices in `[0, 15)` are ever written or
read under a bounds guard, exactly as in the source, where every read is
preceded by an explicit range check or by coordinate validation).
-/

/-- Board side length (`BOARD_SIZE = 15` in `gomoku_board.py`). -/
def BOARD_SIZE : Int := 15

/-- Column letters A–O (`BOARD_COLUMNS` in `gomoku_board.py`). -/
def BOARD_COLUMNS : List Char :=
  ['A', 'B', 'C', 'D', 'E', 'F', 'G', 'H', 'I', 'J', 'K', 'L', 'M', 'N', 'O']

/-- Board state: the grid (cell `'.'` when empty, otherwise the stone
character placed there) addressed by array indices `[row_idx][col_idx]`,
and the move history in play order (`GomokuBoard.__init__`). -/
structure GomokuBoard where
  board : Int → Int → Char
  move_history : List (Char × Int × Char)

/-- The freshly created board: every cell empty, no moves played. -/
def GomokuBoard.init : GomokuBoard :=
  { board := fun _ _ => '.', move_history := [] }

/-- Coordinate validation (`GomokuBoard._validate_coordinates`): the column
letter must be one of `BOARD_COLUMNS` and the row must lie in `[1, 15]`. -/
def validate_coordinates (col : Char) (row : Int) : Bool :=
  BOARD_COLUMNS.contains col && decide (1 ≤ row) && decide (row ≤ BOARD_SIZE)

/-- Coordinate-to-index mapping (`GomokuBoard._coord_to_indices`): row `r`
maps to array row-index `15 - r`, the column letter to its 0-based position
in the letter sequence.  Returns `(row_idx, col_idx)`. -/
def coord_to_indices (col : Char) (row : Int) : Int × Int :=
  (BOARD_SIZE - row, (BOARD_COLUMNS.indexOf col : Int))

/-- Move validation (`GomokuBoard.is_valid_move`): rejects out-of-bounds
coordinates, then occupied cells, with the corresponding reason text. -/
def GomokuBoard.is_valid_move (b : GomokuBoard) (col : Char) (row : Int) :
    Bool × String :=
  if !(validate_coordinates col row) then
    (false, "Invalid coordinates: " ++ col.toString ++ toString row ++
      ". Column must be A-O, row must be 1-" ++ toString BOARD_SIZE)
  else
    let rc := coord_to_indices col row
    if b.board rc.1 rc.2 != '.' then
      (false, "Position " ++ col.toString ++ toString row ++ " is already occupied")
    else
      (true, "")

/-- Stone placement (`GomokuBoard.place_stone`): validates the move, then
the stone tag (must be `'B'` or `'W'`); on failure returns the board
unchanged with `false`, on success writes the cell and appends one record
to the move history. -/
def GomokuBoard.place_stone (b : GomokuBoard) (col : Char) (row : Int)
    (stone : Char) : GomokuBoard × Bool :=
  if !(b.is_valid_move col row).1 then
    (b, false)
  else if !(['B', 'W'].contains stone) then
    (b, false)
  else
    let rc := coord_to_indices col row
    ({ board := fun r c => if r = rc.1 ∧ c = rc.2 then stone else b.board r c,
       move_history := b.move_history ++ [(col, row, stone)] }, true)

/-- Cell lookup (`GomokuBoard.get_stone`): `none` for an out-of-bounds
coordinate, otherwise the cell content, with `'.'` mapped to `none`. -/
def GomokuBoard.get_stone (b : GomokuBoard) (col : Char) (row : Int) :
    Option Char :=
  if !(validate_coordinates col row) then none
  else
    let rc := coord_to_indices col row
    let stone := b.board rc.1 rc.2
    if stone != '.' then some stone else none

/-- Last move (`GomokuBoard.get_last_move`). -/
def GomokuBoard.get_last_move (b : GomokuBoard) : Option (Char × Int × Char) :=
  b.move_history.getLast?

/-- The four scan directions of `WinChecker`, in declaration order:
horizontal, vertical, diagonal down, diagonal up. -/
def directions : List (Int × Int) :=
  [(0, 1), (1, 0), (1, 1), (1, -1)]

/-- The loop guard shared by `WinChecker._count_consecutive` and
`WinChecker._collect_line`: the position is on the board and holds the
given stone. -/
def cell_matches (b : GomokuBoard) (stone : Char) (row col : Int) : Bool :=
  decide (0 ≤ row) && decide (row < BOARD_SIZE) &&
    decide (0 ≤ col) && decide (col < BOARD_SIZE) && (b.board row col == stone)

/-- Loop body of `WinChecker._count_consecutive`, with explicit fuel.
Along any of the eight step vectors actually used the `while` loop can
read at most 15 in-range cells, so fuel 16 is never exhausted. -/
def count_consecutive_from (b : GomokuBoard) (dr dc : Int) (stone : Char) :
    Nat → Int → Int → Nat
  | 0, _, _ => 0
  | fuel + 1, row, col =>
    if cell_matches b stone row col then
      count_consecutive_from b dr dc stone fuel (row + dr) (col + dc) + 1
    else 0

/-- Count of consecutive same-stone cells in direction `(dr, dc)` starting
one step away from `(start_row, start_col)` (`WinChecker._count_consecutive`). -/
def count_consecutive (b : GomokuBoard) (start_row start_col dr dc : Int)
    (stone : Char) : Nat :=
  count_consecutive_from b dr dc stone 16 (start_row + dr) (start_col + dc)

/-- Win test (`WinChecker.check_win`): false for out-of-bounds coordinates;
otherwise true when some direction has, counting the played cell as 1 plus
the consecutive runs on both sides, a total of at least 5. -/
def check_win (b : GomokuBoard) (col : Char) (row : Int) (stone : Char) : Bool :=
  if !(validate_coordinates col row) then false
  else
    let rc := coord_to_indices col row
    directions.any fun d =>
      decide (5 ≤ 1 + count_consecutive b rc.1 rc.2 d.1 d.2 stone
        + count_consecutive b rc.1 rc.2 (-d.1) (-d.2) stone)

/-- Draw test (`WinChecker.is_board_full`): true when no cell is `'.'`. -/
def is_board_full (b : GomokuBoard) : Bool :=
  (List.range BOARD_SIZE.toNat).all fun r =>
    (List.range BOARD_SIZE.toNat).all fun c => !(b.board (r : Int) (c : Int) == '.')

/-- Conversion from array indices back to board coordinates, as done inside
`WinChecker._collect_line` (`board_col = cols[col]`, `board_row = size - row`). -/
def coord_of_indices (r c : Int) : Char × Int :=
  (BOARD_COLUMNS.getD c.toNat 'A', BOARD_SIZE - r)

/-- Loop body of `WinChecker._collect_line`, with explicit fuel (same guard
and step as `count_consecutive_from`, collecting board coordinates). -/
def collect_line_from (b : GomokuBoard) (dr dc : Int) (stone : Char) :
    Nat → Int → Int → List (Char × Int)
  | 0, _, _ => []
  | fuel + 1, row, col =>
    if cell_matches b stone row col then
      coord_of_indices row col :: collect_line_from b dr dc stone fuel (row + dr) (col + dc)
    else []

/-- Positions collected by `WinChecker._collect_line` in direction
`(dr, dc)` starting one step away from `(start_row, start_col)`. -/
def collect_line (b : GomokuBoard) (start_row start_col dr dc : Int)
    (stone : Char) : List (Char × Int) :=
  collect_line_from b dr dc stone 16 (start_row + dr) (start_col + dc)

/-- Direction loop of `WinChecker.get_winning_line`: for each direction in
turn, build the placed cell followed by the positive-direction collection
then the negative-direction collection, and return its first five entries
as soon as it has at least five. -/
def winning_line_loop (b : GomokuBoard) (col : Char) (row : Int) (stone : Char)
    (row_idx col_idx : Int) : List (Int × Int) → Option (List (Char × Int))
  | [] => none
  | d :: ds =>
    let line_positions : List (Char × Int) :=
      (col, row) :: (collect_line b row_idx col_idx d.1 d.2 stone ++
        collect_line b row_idx col_idx (-d.1) (-d.2) stone)
    if 5 ≤ line_positions.length then some (line_positions.take 5)
    else winning_line_loop b col row stone row_idx col_idx ds

/-- Winning-line extraction (`WinChecker.get_winning_line`): `none` unless
`check_win` holds, otherwise the first five collected positions of the
first direction whose line reaches five. -/
def get_winning_line (b : GomokuBoard) (col : Char) (row : Int) (stone : Char) :
    Option (List (Char × Int)) :=
  if !(check_win b col row stone) then none
  else
    let rc := coord_to_indices col row
    winning_line_loop b col row stone rc.1 rc.2 directions

instance run_pred_decidable (b : GomokuBoard) (stone : Char) (r c dr dc : Int) :
    DecidablePred (fun (k : ℕ) => ∀ i ∈ Finset.Icc 1 k,
      cell_matches b stone (r + (i : Int) * dr) (c + (i : Int) * dc) = true) :=
  fun _ => Finset.decidableDforallFinset

/-- Specification-side run length: the largest `k ≤ 15` such that the cells
at distances `1 .. k` from `(r, c)` in direction `(dr, dc)` are all on the
board and hold `stone` — the number of consecutive same-owner stones
adjacent to `(r, c)` on that side. -/
def run_length (b : GomokuBoard) (stone : Char) (r c dr dc : Int) : Nat :=
  Nat.findGreatest
    (fun (k : ℕ) => ∀ i ∈ Finset.Icc 1 k,
      cell_matches b stone (r + (i : Int) * dr) (c + (i : Int) * dc) = true) 15

/-- Specification-side winning line for direction `d`: the placed cell,
then the positive-direction same-owner neighbours in increasing distance,
then the negative-direction ones in increasing distance. -/
def spec_line (b : GomokuBoard) (stone : Char) (col : Char) (row : Int)
    (d : Int × Int) : List (Char × Int) :=
  (col, row) ::
    ((List.range (run_length b stone (coord_to_indices col row).1
        (coord_to_indices col row).2 d.1 d.2)).map
      (fun (i : Nat) => coord_of_indices
        ((coord_to_indices col row).1 + ((i : Int) + 1) * d.1)
        ((coord_to_indices col row).2 + ((i : Int) + 1) * d.2)) ++
     (List.range (run_length b stone (coord_to_indices col row).1
        (coord_to_indices col row).2 (-d.1) (-d.2))).map
      (fun (i : Nat) => coord_of_indices
        ((coord_to_indices col row).1 + ((i : Int) + 1) * (-d.1))
        ((coord_to_indices col row).2 + ((i : Int) + 1) * (-d.2))))

/-- Specification-side win condition for direction `d`: the played cell
plus the two adjacent runs reach five. -/
def wins_spec (b : GomokuBoard) (stone : Char) (col : Char) (row : Int)
    (d : Int × Int) : Prop :=
  5 ≤ 1 + run_length b stone (coord_to_indices col row).1
        (coord_to_indices col row).2 d.1 d.2
      + run_length b stone (coord_to_indices col row).1
        (coord_to_indices col row).2 (-d.1) (-d.2)

/-- Number of occupied cells of the 15×15 grid. -/
def occupied_count (b : GomokuBoard) : Nat :=
  (((Finset.range 15) ×ˢ (Finset.range 15)).filter
    (fun p => b.board (p.1 : Int) (p.2 : Int) ≠ '.')).card

/-- Replay of a sequence of placement calls from a given board. -/
def apply_moves (b : GomokuBoard) : List (Char × Int × Char) → GomokuBoard
  | [] => b
  | m :: ms => apply_moves (b.place_stone m.1 m.2.1 m.2.2).1 ms

/-! ### Helper lemmas about the scanning loops -/

lemma count_from_good (b : GomokuBoard) (dr dc : Int) (stone : Char) :
    ∀ (fuel : Nat) (row col : Int) (i : Nat),
      i < count_consecutive_from b dr dc stone fuel row col →
      cell_matches b stone (row + (i : Int) * dr) (col + (i : Int) * dc) = true := by
  intro fuel
  induction fuel with
  | zero => intro row col i h; simp [count_consecutive_from] at h
  | succ n ih =>
    intro row col i h
    simp only [count_consecutive_from] at h
    by_cases hg : cell_matches b stone row col = true
    · rw [if_pos hg] at h
      cases i with
      | zero => simpa using hg
      | succ j =>
        have hj : j < count_consecutive_from b dr dc stone n (row + dr) (col + dc) := by
          omega
        have h2 := ih (row + dr) (col + dc) j hj
        have ecast : ((j + 1 : Nat) : Int) = (j : Int) + 1 := by push_cast; ring
        have er : row + ((j + 1 : Nat) : Int) * dr = row + dr + (j : Int) * dr := by
          rw [ecast]; ring
        have ec : col + ((j + 1 : Nat) : Int) * dc = col + dc + (j : Int) * dc := by
          rw [ecast]; ring
        rw [er, ec]
        exact h2
    · rw [if_neg hg] at h
      omega

lemma count_from_stop (b : GomokuBoard) (dr dc : Int) (stone : Char) :
    ∀ (fuel : Nat) (row col : Int),
      count_consecutive_from b dr dc stone fuel row col < fuel →
      cell_matches b stone
        (row + (count_consecutive_from b dr dc stone fuel row col : Int) * dr)
        (col + (count_consecutive_from b dr dc stone fuel row col : Int) * dc) = false := by
  intro fuel
  induction fuel with
  | zero => intro row col h; omega
  | succ n ih =>
    intro row col h
    simp only [count_consecutive_from] at h ⊢
    by_cases hg : cell_matches b stone row col = true
    · rw [if_pos hg] at h ⊢
      have hmn : count_consecutive_from b dr dc stone n (row + dr) (col + dc) < n := by
        omega
      have h2 := ih (row + dr) (col + dc) hmn
      have ecast :
          ((count_consecutive_from b dr dc stone n (row + dr) (col + dc) + 1 : Nat) : Int)
            = (count_consecutive_from b dr dc stone n (row + dr) (col + dc) : Int) + 1 := by
        push_cast; ring
      have er : row +
          ((count_consecutive_from b dr dc stone n (row + dr) (col + dc) + 1 : Nat) : Int) * dr
            = row + dr +
              (count_consecutive_from b dr dc stone n (row + dr) (col + dc) : Int) * dr := by
        rw [ecast]; ring
      have ec : col +
          ((count_consecutive_from b dr dc stone n (row + dr) (col + dc) + 1 : Nat) : Int) * dc
            = col + dc +
              (count_consecutive_from b dr dc stone n (row + dr) (col + dc) : Int) * dc := by
        rw [ecast]; ring
      rw [er, ec]
      exact h2
    · rw [if_neg hg]
      simpa using hg

lemma count_from_le (b : GomokuBoard) (dr dc : Int) (stone : Char)
    (hd : dr = 1 ∨ dr = -1 ∨ dc = 1 ∨ dc = -1)
    (fuel : Nat) (row col : Int) :
    count_consecutive_from b dr dc stone fuel row col ≤ 15 := by
  by_contra hlt
  push_neg at hlt
  have h0 := count_from_good b dr dc stone fuel row col 0 (by omega)
  have h15 := count_from_good b dr dc stone fuel row col 15 (by omega)
  simp only [Nat.cast_zero, zero_mul, add_zero, Nat.cast_ofNat] at h0 h15
  simp only [cell_matches, Bool.and_eq_true, decide_eq_true_eq, BOARD_SIZE] at h0 h15
  obtain ⟨⟨⟨⟨hr0, hr1⟩, hc0⟩, hc1⟩, -⟩ := h0
  obtain ⟨⟨⟨⟨hr0f, hr1f⟩, hc0f⟩, hc1f⟩, -⟩ := h15
  rcases hd with h | h | h | h <;> subst h <;> omega

lemma count_eq_run_length (b : GomokuBoard) (stone : Char) (r c dr dc : Int)
    (hd : dr = 1 ∨ dr = -1 ∨ dc = 1 ∨ dc = -1) :
    count_consecutive b r c dr dc stone = run_length b stone r c dr dc := by
  have hn : count_consecutive b r c dr dc stone
      = count_consecutive_from b dr dc stone 16 (r + dr) (c + dc) := rfl
  have hle : count_consecutive b r c dr dc stone ≤ 15 := by
    rw [hn]; exact count_from_le b dr dc stone hd 16 (r + dr) (c + dc)
  have hgood : ∀ i ∈ Finset.Icc 1 (count_consecutive b r c dr dc stone),
      cell_matches b stone (r + (i : Int) * dr) (c + (i : Int) * dc) = true := by
    intro i hi
    rw [Finset.mem_Icc] at hi
    obtain ⟨j, rfl⟩ : ∃ j, i = j + 1 := ⟨i - 1, by omega⟩
    have h2 := count_from_good b dr dc stone 16 (r + dr) (c + dc) j (by rw [← hn]; omega)
    have ecast : ((j + 1 : Nat) : Int) = (j : Int) + 1 := by push_cast; ring
    have er : r + ((j + 1 : Nat) : Int) * dr = r + dr + (j : Int) * dr := by rw [ecast]; ring
    have ec : c + ((j + 1 : Nat) : Int) * dc = c + dc + (j : Int) * dc := by rw [ecast]; ring
    rw [er, ec]
    exact h2
  have hstop : cell_matches b stone
      (r + ((count_consecutive b r c dr dc stone + 1 : Nat) : Int) * dr)
      (c + ((count_consecutive b r c dr dc stone + 1 : Nat) : Int) * dc) = false := by
    have hlt : count_consecutive_from b dr dc stone 16 (r + dr) (c + dc) < 16 := by
      rw [← hn]; omega
    have h2 := count_from_stop b dr dc stone 16 (r + dr) (c + dc) hlt
    rw [← hn] at h2
    have ecast : ((count_consecutive b r c dr dc stone + 1 : Nat) : Int)
        = (count_consecutive b r c dr dc stone : Int) + 1 := by push_cast; ring
    have er : r + ((count_consecutive b r c dr dc stone + 1 : Nat) : Int) * dr
        = r + dr + (count_consecutive b r c dr dc stone : Int) * dr := by rw [ecast]; ring
    have ec : c + ((count_consecutive b r c dr dc stone + 1 : Nat) : Int) * dc
        = c + dc + (count_consecutive b r c dr dc stone : Int) * dc := by rw [ecast]; ring
    rw [er, ec]
    exact h2
  rw [run_length]
  refine (Nat.findGreatest_eq_iff.mpr ⟨hle, fun _ => hgood, ?_⟩).symm
  intro m hml hm15 hPm
  have h1 := hPm (count_consecutive b r c dr dc stone + 1)
    (Finset.mem_Icc.mpr ⟨by omega, by omega⟩)
  rw [h1] at hstop
  simp at hstop

lemma collect_from_eq (b : GomokuBoard) (dr dc : Int) (stone : Char) :
    ∀ (fuel : Nat) (row col : Int),
      collect_line_from b dr dc stone fuel row col =
        (List.range (count_consecutive_from b dr dc stone fuel row col)).map
          (fun (i : Nat) =>
            coord_of_indices (row + (i : Int) * dr) (col + (i : Int) * dc)) := by
  intro fuel
  induction fuel with
  | zero => intro row col; simp [collect_line_from, count_consecutive_from]
  | succ n ih =>
    intro row col
    simp only [collect_line_from, count_consecutive_from]
    by_cases hg : cell_matches b stone row col = true
    · rw [if_pos hg, if_pos hg, ih, List.range_succ_eq_map]
      simp only [List.map_cons, List.map_map, List.cons.injEq]
      constructor
      · simp
      · apply List.map_congr_left
        intro i _
        simp only [Function.comp_apply]
        congr 1 <;> push_cast <;> ring
    · rw [if_neg hg, if_neg hg]
      simp

lemma collect_line_length (b : GomokuBoard) (r c dr dc : Int) (stone : Char) :
    (collect_line b r c dr dc stone).length = count_consecutive b r c dr dc stone := by
  have h : collect_line b r c dr dc stone
      = collect_line_from b dr dc stone 16 (r + dr) (c + dc) := rfl
  rw [h, collect_from_eq, List.length_map, List.length_range]
  rfl

lemma winning_line_loop_eq (b : GomokuBoard) (col : Char) (row : Int)
    (stone : Char) (ri ci : Int) :
    ∀ ds : List (Int × Int),
      winning_line_loop b col row stone ri ci ds =
        (ds.find? fun d => decide (5 ≤ 1 + count_consecutive b ri ci d.1 d.2 stone
            + count_consecutive b ri ci (-d.1) (-d.2) stone)).map
          (fun d => ((col, row) :: (collect_line b ri ci d.1 d.2 stone ++
              collect_line b ri ci (-d.1) (-d.2) stone)).take 5) := by
  intro ds
  induction ds with
  | nil => simp [winning_line_loop]
  | cons d ds ih =>
    simp only [winning_line_loop]
    have hlen : ((col, row) :: (collect_line b ri ci d.1 d.2 stone ++
        collect_line b ri ci (-d.1) (-d.2) stone)).length
        = 1 + count_consecutive b ri ci d.1 d.2 stone
            + count_consecutive b ri ci (-d.1) (-d.2) stone := by
      simp only [List.length_cons, List.length_append, collect_line_length]
      omega
    by_cases hw : 5 ≤ 1 + count_consecutive b ri ci d.1 d.2 stone
        + count_consecutive b ri ci (-d.1) (-d.2) stone
    · rw [if_pos (by rw [hlen]; exact hw), List.find?_cons_of_pos _ (by simpa using hw)]
      simp
    · rw [if_neg (by rw [hlen]; exact hw), List.find?_cons_of_neg _ (by simpa using hw)]
      exact ih

lemma dir_step_cases (d : Int × Int) (hd : d ∈ directions) :
    (d.1 = 1 ∨ d.1 = -1 ∨ d.2 = 1 ∨ d.2 = -1) ∧
      (-d.1 = 1 ∨ -d.1 = -1 ∨ -d.2 = 1 ∨ -d.2 = -1) ∧ ¬(d.1 = 0 ∧ d.2 = 0) := by
  simp only [directions, List.mem_cons, List.not_mem_nil, or_false] at hd
  rcases hd with h | h | h | h <;> subst h <;> refine ⟨?_, ?_, ?_⟩ <;> simp

lemma validate_iff (col : Char) (row : Int) :
    validate_coordinates col row = true ↔ col ∈ BOARD_COLUMNS ∧ 1 ≤ row ∧ row ≤ 15 := by
  simp [validate_coordinates, BOARD_SIZE, and_assoc]

lemma coord_indices_bounds (col : Char) (row : Int)
    (h : validate_coordinates col row = true) :
    0 ≤ (coord_to_indices col row).1 ∧ (coord_to_indices col row).1 < 15 ∧
      0 ≤ (coord_to_indices col row).2 ∧ (coord_to_indices col row).2 < 15 := by
  rw [validate_iff] at h
  obtain ⟨hc, h1, h2⟩ := h
  have hidx : BOARD_COLUMNS.indexOf col < BOARD_COLUMNS.length :=
    List.indexOf_lt_length.mpr hc
  have hlen : BOARD_COLUMNS.length = 15 := rfl
  rw [hlen] at hidx
  simp only [coord_to_indices, BOARD_SIZE]
  refine ⟨by omega, by omega, by omega, by omega⟩

lemma is_valid_move_fst (b : GomokuBoard) (col : Char) (row : Int) :
    (b.is_valid_move col row).1 = true ↔
      validate_coordinates col row = true ∧
        b.board (coord_to_indices col row).1 (coord_to_indices col row).2 = '.' := by
  rw [GomokuBoard.is_valid_move]
  by_cases hv : validate_coordinates col row = true
  · rw [if_neg (by simp [hv])]
    by_cases hb : b.board (coord_to_indices col row).1 (coord_to_indices col row).2 = '.'
    · rw [if_neg (by simpa using hb)]
      simp [hv, hb]
    · rw [if_pos (by simpa using hb)]
      simp [hv, hb]
  · rw [if_pos (by simpa using hv)]
    simp [hv]

lemma count_from_congr (b b' : GomokuBoard) (dr dc : Int) (stone : Char) :
    ∀ (fuel : Nat) (row col : Int),
      (∀ i : Nat, i < fuel → b'.board (row + (i : Int) * dr) (col + (i : Int) * dc)
        = b.board (row + (i : Int) * dr) (col + (i : Int) * dc)) →
      count_consecutive_from b' dr dc stone fuel row col
        = count_consecutive_from b dr dc stone fuel row col := by
  intro fuel
  induction fuel with
  | zero => intro row col _; simp [count_consecutive_from]
  | succ n ih =>
    intro row col hagree
    have h0 : b'.board row col = b.board row col := by
      have h1 := hagree 0 (by omega)
      simpa using h1
    have hcell : cell_matches b' stone row col = cell_matches b stone row col := by
      simp [cell_matches, h0]
    simp only [count_consecutive_from, hcell]
    split_ifs with hg
    · have hshift : ∀ i : Nat, i < n →
          b'.board (row + dr + (i : Int) * dr) (col + dc + (i : Int) * dc)
            = b.board (row + dr + (i : Int) * dr) (col + dc + (i : Int) * dc) := by
        intro i hi
        have h1 := hagree (i + 1) (by omega)
        have ecast : ((i + 1 : Nat) : Int) = (i : Int) + 1 := by push_cast; ring
        have er : row + ((i + 1 : Nat) : Int) * dr = row + dr + (i : Int) * dr := by
          rw [ecast]; ring
        have ec : col + ((i + 1 : Nat) : Int) * dc = col + dc + (i : Int) * dc := by
          rw [ecast]; ring
        rw [er, ec] at h1
        exact h1
      rw [ih (row + dr) (col + dc) hshift]
    · rfl

lemma count_congr_of_agree (b b' : GomokuBoard) (ri ci dr dc : Int) (stone : Char)
    (hdz : ¬(dr = 0 ∧ dc = 0))
    (hagree : ∀ r c : Int, ¬(r = ri ∧ c = ci) → b'.board r c = b.board r c) :
    count_consecutive b' ri ci dr dc stone = count_consecutive b ri ci dr dc stone := by
  rw [count_consecutive, count_consecutive]
  apply count_from_congr
  intro i _
  apply hagree
  rintro ⟨h1, h2⟩
  apply hdz
  have e1 : ((i : Int) + 1) * dr = 0 := by linarith
  have e2 : ((i : Int) + 1) * dc = 0 := by linarith
  constructor
  · rcases mul_eq_zero.mp e1 with h | h
    · omega
    · exact h
  · rcases mul_eq_zero.mp e2 with h | h
    · omega
    · exact h

lemma list_any_ext {α : Type} (l : List α) (f g : α → Bool)
    (h : ∀ x ∈ l, f x = g x) : l.any f = l.any g := by
  induction l with
  | nil => rfl
  | cons x xs ih =>
    simp only [List.any_cons]
    rw [h x (by simp), ih (fun y hy => h y (by simp [hy]))]

lemma find_eq_some_split {α : Type} (p : α → Bool) :
    ∀ (l : List α) (a : α), l.find? p = some a →
      ∃ pre post, l = pre ++ a :: post ∧ p a = true ∧ ∀ x ∈ pre, p x = false := by
  intro l
  induction l with
  | nil => intro a h; simp [List.find?] at h
  | cons x xs ih =>
    intro a h
    by_cases hx : p x = true
    · rw [List.find?_cons_of_pos _ hx] at h
      obtain rfl : x = a := by injection h
      exact ⟨[], xs, rfl, hx, by simp⟩
    · rw [List.find?_cons_of_neg _ (by simpa using hx)] at h
      obtain ⟨pre, post, hl, hpa, hpre⟩ := ih a h
      exact ⟨x :: pre, post, by rw [hl]; rfl, hpa,
        fun y hy => by
          rcases List.mem_cons.mp hy with rfl | hy2
          · simpa using hx
          · exact hpre y hy2⟩

lemma cols_getD_indexOf (col : Char) (hc : col ∈ BOARD_COLUMNS) :
    BOARD_COLUMNS.getD (BOARD_COLUMNS.indexOf col) 'A' = col := by
  have hidx : BOARD_COLUMNS.indexOf col < BOARD_COLUMNS.length :=
    List.indexOf_lt_length.mpr hc
  rw [List.getD_eq_getElem _ _ hidx]
  exact List.getElem_indexOf hidx

/-! ### Claim theorems -/

/-- C7: for every valid coordinate, the row number `r` maps to array
row-index `size - r` and the column letter to its 0-based position in the
letter sequence, and converting those indices back (as the line collector
does) yields the original `(column, row)` pair. -/
theorem coord_roundtrip (col : Char) (row : Int)
    (h : validate_coordinates col row = true) :
    coord_to_indices col row
        = (BOARD_SIZE - row, (BOARD_COLUMNS.indexOf col : Int)) ∧
      coord_of_indices (coord_to_indices col row).1 (coord_to_indices col row).2
        = (col, row) := by
  refine ⟨rfl, ?_⟩
  rw [validate_iff] at h
  obtain ⟨hc, h1, h2⟩ := h
  simp only [coord_to_indices, coord_of_indices, BOARD_SIZE, Prod.mk.injEq]
  constructor
  · rw [Int.toNat_natCast]
    exact cols_getD_indexOf col hc
  · omega

/-- C7 witness: the round-trip instantiated at the concrete coordinate H8. -/
theorem coord_roundtrip_witness :
    coord_of_indices (coord_to_indices 'H' 8).1 (coord_to_indices 'H' 8).2
      = ('H', 8) :=
  (coord_roundtrip 'H' 8 (by decide)).2

/-- C9: `is_board_full` is true exactly when every one of the 15×15 cells
is occupied (non-`'.'`), and false as soon as one cell is empty. -/
theorem is_board_full_iff (b : GomokuBoard) :
    is_board_full b = true ↔
      ∀ r c : Nat, r < 15 → c < 15 → b.board (r : Int) (c : Int) ≠ '.' := by
  simp only [is_board_full, BOARD_SIZE, Int.toNat_ofNat, List.all_eq_true,
    List.mem_range, Bool.not_eq_true', beq_eq_false_iff_ne, ne_eq]
  exact ⟨fun h r c hr hc => h r hr c hc, fun h r hr c hc => h r c hr hc⟩

/-- Board with a stone on every cell, for exercising the full-board test. -/
def full_board : GomokuBoard :=
  { board := fun _ _ => 'B', move_history := [] }

/-- C9 witness: the all-stones board is reported full. -/
theorem is_board_full_iff_witness : is_board_full full_board = true :=
  (is_board_full_iff full_board).mpr
    (fun _ _ _ _ => by show ('B' : Char) ≠ '.'; decide)

/-- C4 counterexample: the in-bounds empty cell A1 and the out-of-bounds
query A0 both return `none` from `get_stone`, so the return value alone
does not distinguish an empty cell from an invalid coordinate. -/
theorem get_stone_not_distinguishable :
    validate_coordinates 'A' 1 = true ∧
      GomokuBoard.init.board (coord_to_indices 'A' 1).1 (coord_to_indices 'A' 1).2 = '.' ∧
      validate_coordinates 'A' 0 = false ∧
      GomokuBoard.init.get_stone 'A' 1 = GomokuBoard.init.get_stone 'A' 0 := by
  exact ⟨by decide, rfl, by decide, by decide⟩

/-- C4 (amended): `get_stone` returns the cell's owner when the cell is
occupied, and `none` both when the cell is in bounds but empty and when the
coordinate is out of range — the latter two are not distinguishable by the
return value. -/
theorem get_stone_spec (b : GomokuBoard) (col : Char) (row : Int) :
    (validate_coordinates col row = false → b.get_stone col row = none) ∧
    (validate_coordinates col row = true →
      b.get_stone col row =
        (if b.board (coord_to_indices col row).1 (coord_to_indices col row).2 = '.'
         then none
         else some (b.board (coord_to_indices col row).1 (coord_to_indices col row).2))) := by
  constructor
  · intro h
    simp [GomokuBoard.get_stone, h]
  · intro h
    simp only [GomokuBoard.get_stone, h, Bool.not_true, Bool.false_eq_true,
      if_false, bne_iff_ne, ne_eq]
    by_cases hb : b.board (coord_to_indices col row).1 (coord_to_indices col row).2 = '.'
    · rw [if_neg (by simpa using hb), if_pos hb]
    · rw [if_pos hb, if_neg hb]

/-- C4 witness: the amended description evaluated at the out-of-bounds
query A0 and the empty in-bounds cell A1 of the fresh board. -/
theorem get_stone_spec_witness :
    GomokuBoard.init.get_stone 'A' 0 = none ∧
      GomokuBoard.init.get_stone 'A' 1 = none :=
  ⟨(get_stone_spec GomokuBoard.init 'A' 0).1 (by decide),
   by rw [(get_stone_spec GomokuBoard.init 'A' 1).2 (by decide)]; decide⟩

/-- C5: `place_stone` on an out-of-bounds coordinate, an occupied cell, or
with a stone tag other than `'B'`/`'W'` returns failure and leaves both the
grid and the move log exactly unchanged; on success it sets exactly the
addressed cell and appends exactly one `(column, row, stone)` record. -/
theorem place_stone_spec (b : GomokuBoard) (col : Char) (row : Int) (stone : Char) :
    ((validate_coordinates col row = false ∨
        b.board (coord_to_indices col row).1 (coord_to_indices col row).2 ≠ '.' ∨
        ¬(stone = 'B' ∨ stone = 'W')) →
      b.place_stone col row stone = (b, false)) ∧
    (validate_coordinates col row = true →
      b.board (coord_to_indices col row).1 (coord_to_indices col row).2 = '.' →
      (stone = 'B' ∨ stone = 'W') →
      (b.place_stone col row stone).2 = true ∧
      (∀ r c : Int, (b.place_stone col row stone).1.board r c =
        if r = (coord_to_indices col row).1 ∧ c = (coord_to_indices col row).2 then stone
        else b.board r c) ∧
      (b.place_stone col row stone).1.move_history
        = b.move_history ++ [(col, row, stone)]) := by
  constructor
  · intro h
    by_cases hvm : (b.is_valid_move col row).1 = true
    · have hve := (is_valid_move_fst b col row).mp hvm
      have hstone : ¬(stone = 'B' ∨ stone = 'W') := by
        rcases h with h | h | h
        · rw [hve.1] at h; cases h
        · exact absurd hve.2 h
        · exact h
      rw [GomokuBoard.place_stone, if_neg (by simp [hvm]),
        if_pos (by simp; tauto)]
    · simp only [Bool.not_eq_true] at hvm
      rw [GomokuBoard.place_stone, if_pos (by simp [hvm])]
  · intro hval hempty hstone
    have hvm : (b.is_valid_move col row).1 = true :=
      (is_valid_move_fst b col row).mpr ⟨hval, hempty⟩
    rw [GomokuBoard.place_stone, if_neg (by simp [hvm]), if_neg (by simp; tauto)]
    exact ⟨rfl, fun r c => rfl, rfl⟩

/-- C5 witness: placing on the out-of-column coordinate Z1 fails and
leaves the fresh board unchanged. -/
theorem place_stone_spec_witness :
    GomokuBoard.init.place_stone 'Z' 1 'B' = (GomokuBoard.init, false) :=
  (place_stone_spec GomokuBoard.init 'Z' 1 'B').1 (Or.inl (by decide))

/-- C8: a successful placement on a valid empty coordinate followed by
`get_stone` on the same coordinate returns the owner just placed. -/
theorem place_then_get (b : GomokuBoard) (col : Char) (row : Int) (stone : Char)
    (hval : validate_coordinates col row = true)
    (hempty : b.board (coord_to_indices col row).1 (coord_to_indices col row).2 = '.')
    (hstone : stone = 'B' ∨ stone = 'W') :
    (b.place_stone col row stone).1.get_stone col row = some stone := by
  have hvm : (b.is_valid_move col row).1 = true :=
    (is_valid_move_fst b col row).mpr ⟨hval, hempty⟩
  have hne : stone ≠ '.' := by rcases hstone with rfl | rfl <;> decide
  rw [GomokuBoard.place_stone, if_neg (by simp [hvm]), if_neg (by simp; tauto)]
  rw [GomokuBoard.get_stone, if_neg (by simp [hval])]
  simp [hne]

/-- C8 witness: placing a black stone on H8 of the fresh board and reading
it back. -/
theorem place_then_get_witness :
    (GomokuBoard.init.place_stone 'H' 8 'B').1.get_stone 'H' 8 = some 'B' :=
  place_then_get GomokuBoard.init 'H' 8 'B' (by decide) rfl (Or.inl rfl)

instance wins_spec_decidable (b : GomokuBoard) (stone col : Char) (row : Int)
    (d : Int × Int) : Decidable (wins_spec b stone col row d) := by
  unfold wins_spec; infer_instance

/-- C1: `check_win` is false on an out-of-bounds coordinate; on a valid one
it is true exactly when, for at least one of the four directions, 1 plus the
adjacent same-owner run in the positive direction plus the adjacent run in
the negative direction reaches 5 (so longer runs also win). -/
theorem check_win_spec (b : GomokuBoard) (col : Char) (row : Int) (stone : Char) :
    (validate_coordinates col row = false → check_win b col row stone = false) ∧
    (validate_coordinates col row = true →
      (check_win b col row stone = true ↔
        ∃ d ∈ directions, wins_spec b stone col row d)) := by
  constructor
  · intro h
    rw [check_win, if_pos (by simp [h])]
  · intro hval
    rw [check_win, if_neg (by simp [hval])]
    simp only [List.any_eq_true, decide_eq_true_eq]
    constructor
    · rintro ⟨d, hdmem, hcount⟩
      refine ⟨d, hdmem, ?_⟩
      rw [wins_spec,
        ← count_eq_run_length b stone _ _ d.1 d.2 (dir_step_cases d hdmem).1,
        ← count_eq_run_length b stone _ _ (-d.1) (-d.2) (dir_step_cases d hdmem).2.1]
      exact hcount
    · rintro ⟨d, hdmem, hw⟩
      refine ⟨d, hdmem, ?_⟩
      rw [wins_spec,
        ← count_eq_run_length b stone _ _ d.1 d.2 (dir_step_cases d hdmem).1,
        ← count_eq_run_length b stone _ _ (-d.1) (-d.2) (dir_step_cases d hdmem).2.1] at hw
      exact hw

/-- Board with a horizontal run of black stones on D8–H8. -/
def win_board_h : GomokuBoard :=
  { board := fun r c => if r = 7 ∧ 3 ≤ c ∧ c ≤ 7 then 'B' else '.',
    move_history := [] }

/-- C1 witness: on the D8–H8 board, the move F8 for black is a win, via the
horizontal direction whose two adjacent runs have lengths 2 and 2. -/
theorem check_win_spec_witness : check_win win_board_h 'F' 8 'B' = true :=
  ((check_win_spec win_board_h 'F' 8 'B').2 (by decide)).mpr
    ⟨(0, 1), by decide, by decide⟩

/-- C10: `check_win` never reads the queried cell itself: its result is
unchanged under any modification of that cell alone, and on a valid
coordinate it is true exactly when the two adjacent runs of some direction
total at least 4 — even if the queried cell is empty or holds the other
owner's stone. -/
theorem check_win_ignores_played_cell (b b' : GomokuBoard) (col : Char)
    (row : Int) (stone : Char)
    (hval : validate_coordinates col row = true)
    (hagree : ∀ r c : Int,
      ¬(r = (coord_to_indices col row).1 ∧ c = (coord_to_indices col row).2) →
      b'.board r c = b.board r c) :
    check_win b' col row stone = check_win b col row stone ∧
    (check_win b col row stone = true ↔
      ∃ d ∈ directions,
        4 ≤ run_length b stone (coord_to_indices col row).1
              (coord_to_indices col row).2 d.1 d.2
          + run_length b stone (coord_to_indices col row).1
              (coord_to_indices col row).2 (-d.1) (-d.2)) := by
  have hexp : ∀ bb : GomokuBoard, check_win bb col row stone =
      directions.any fun d =>
        decide (5 ≤ 1 + count_consecutive bb (coord_to_indices col row).1
            (coord_to_indices col row).2 d.1 d.2 stone
          + count_consecutive bb (coord_to_indices col row).1
            (coord_to_indices col row).2 (-d.1) (-d.2) stone) := by
    intro bb
    rw [check_win, if_neg (by simp [hval])]
  constructor
  · rw [hexp b, hexp b']
    apply list_any_ext
    intro d hd
    have hz := (dir_step_cases d hd).2.2
    have hz2 : ¬(-d.1 = 0 ∧ -d.2 = 0) := by
      rintro ⟨h1, h2⟩
      exact hz ⟨by omega, by omega⟩
    rw [count_congr_of_agree b b' _ _ d.1 d.2 stone hz hagree,
      count_congr_of_agree b b' _ _ (-d.1) (-d.2) stone hz2 hagree]
  · rw [hexp b]
    simp only [List.any_eq_true, decide_eq_true_eq]
    constructor
    · rintro ⟨d, hdmem, hcount⟩
      refine ⟨d, hdmem, ?_⟩
      rw [← count_eq_run_length b stone _ _ d.1 d.2 (dir_step_cases d hdmem).1,
        ← count_eq_run_length b stone _ _ (-d.1) (-d.2) (dir_step_cases d hdmem).2.1]
      omega
    · rintro ⟨d, hdmem, hw⟩
      refine ⟨d, hdmem, ?_⟩
      rw [← count_eq_run_length b stone _ _ d.1 d.2 (dir_step_cases d hdmem).1,
        ← count_eq_run_length b stone _ _ (-d.1) (-d.2) (dir_step_cases d hdmem).2.1] at hw
      omega

/-- Board with four black stones G8–J8 and the cell F8 empty. -/
def gap_board : GomokuBoard :=
  { board := fun r c => if r = 7 ∧ 6 ≤ c ∧ c ≤ 9 then 'B' else '.',
    move_history := [] }

/-- The same board with a white stone written on the queried cell F8. -/
def gap_board_w : GomokuBoard :=
  { board := fun r c => if r = 7 ∧ c = 5 then 'W' else gap_board.board r c,
    move_history := [] }

/-- C10 witness: the F8 query for black gives the same answer whether F8 is
empty or holds a white stone, and that answer is a win (the queried cell is
empty, yet the adjacent run of four to its right suffices). -/
theorem check_win_ignores_played_cell_witness :
    check_win gap_board_w 'F' 8 'B' = check_win gap_board 'F' 8 'B' ∧
      check_win gap_board 'F' 8 'B' = true :=
  have hagree : ∀ r c : Int,
      ¬(r = (coord_to_indices 'F' 8).1 ∧ c = (coord_to_indices 'F' 8).2) →
      gap_board_w.board r c = gap_board.board r c := fun r c h => by
    show (if r = 7 ∧ c = 5 then 'W' else gap_board.board r c) = gap_board.board r c
    rw [if_neg]
    rintro ⟨h1, h2⟩
    exact h ⟨by rw [h1]; decide, by rw [h2]; decide⟩
  ⟨(check_win_ignores_played_cell gap_board gap_board_w 'F' 8 'B'
      (by decide) hagree).1,
   (check_win_ignores_played_cell gap_board gap_board_w 'F' 8 'B'
      (by decide) hagree).2.mpr ⟨(0, 1), by decide, by decide⟩⟩

lemma collect_line_eq_map (b : GomokuBoard) (r c dr dc : Int) (stone : Char) :
    collect_line b r c dr dc stone =
      (List.range (count_consecutive b r c dr dc stone)).map
        (fun (i : Nat) =>
          coord_of_indices (r + ((i : Int) + 1) * dr) (c + ((i : Int) + 1) * dc)) := by
  have h : collect_line b r c dr dc stone
      = collect_line_from b dr dc stone 16 (r + dr) (c + dc) := rfl
  have h2 : count_consecutive_from b dr dc stone 16 (r + dr) (c + dc)
      = count_consecutive b r c dr dc stone := rfl
  rw [h, collect_from_eq, h2]
  apply List.map_congr_left
  intro i _
  congr 1 <;> ring

lemma check_win_valid (b : GomokuBoard) (col : Char) (row : Int) (stone : Char)
    (h : check_win b col row stone = true) :
    validate_coordinates col row = true := by
  by_contra hv
  simp only [Bool.not_eq_true] at hv
  rw [check_win, if_pos (by simp [hv])] at h
  cases h

lemma check_win_any (b : GomokuBoard) (col : Char) (row : Int) (stone : Char)
    (hval : validate_coordinates col row = true) :
    check_win b col row stone = true ↔
      ∃ d ∈ directions,
        5 ≤ 1 + count_consecutive b (coord_to_indices col row).1
              (coord_to_indices col row).2 d.1 d.2 stone
          + count_consecutive b (coord_to_indices col row).1
              (coord_to_indices col row).2 (-d.1) (-d.2) stone := by
  rw [check_win, if_neg (by simp [hval])]
  simp [List.any_eq_true]

lemma get_winning_line_eq (b : GomokuBoard) (col : Char) (row : Int) (stone : Char)
    (hcw : check_win b col row stone = true) :
    get_winning_line b col row stone =
      (directions.find? fun d =>
        decide (5 ≤ 1 + count_consecutive b (coord_to_indices col row).1
            (coord_to_indices col row).2 d.1 d.2 stone
          + count_consecutive b (coord_to_indices col row).1
            (coord_to_indices col row).2 (-d.1) (-d.2) stone)).map
        (fun d => ((col, row) ::
          (collect_line b (coord_to_indices col row).1 (coord_to_indices col row).2
              d.1 d.2 stone ++
           collect_line b (coord_to_indices col row).1 (coord_to_indices col row).2
              (-d.1) (-d.2) stone)).take 5) := by
  rw [get_winning_line, if_neg (by simp [hcw])]
  exact winning_line_loop_eq b col row stone _ _ directions

lemma line_eq_spec_line (b : GomokuBoard) (col : Char) (row : Int) (stone : Char)
    (d : Int × Int) (hd : d ∈ directions) :
    ((col, row) ::
      (collect_line b (coord_to_indices col row).1 (coord_to_indices col row).2
          d.1 d.2 stone ++
       collect_line b (coord_to_indices col row).1 (coord_to_indices col row).2
          (-d.1) (-d.2) stone)) = spec_line b stone col row d := by
  rw [spec_line, collect_line_eq_map, collect_line_eq_map,
    count_eq_run_length b stone _ _ d.1 d.2 (dir_step_cases d hd).1,
    count_eq_run_length b stone _ _ (-d.1) (-d.2) (dir_step_cases d hd).2.1]

lemma wins_spec_iff_count (b : GomokuBoard) (col : Char) (row : Int) (stone : Char)
    (d : Int × Int) (hd : d ∈ directions) :
    wins_spec b stone col row d ↔
      5 ≤ 1 + count_consecutive b (coord_to_indices col row).1
            (coord_to_indices col row).2 d.1 d.2 stone
        + count_consecutive b (coord_to_indices col row).1
            (coord_to_indices col row).2 (-d.1) (-d.2) stone := by
  rw [wins_spec,
    count_eq_run_length b stone _ _ d.1 d.2 (dir_step_cases d hd).1,
    count_eq_run_length b stone _ _ (-d.1) (-d.2) (dir_step_cases d hd).2.1]

lemma get_winning_line_of_find (b : GomokuBoard) (col : Char) (row : Int)
    (stone : Char) (d0 : Int × Int)
    (hcw : check_win b col row stone = true)
    (hfind : (directions.find? fun d =>
      decide (5 ≤ 1 + count_consecutive b (coord_to_indices col row).1
          (coord_to_indices col row).2 d.1 d.2 stone
        + count_consecutive b (coord_to_indices col row).1
          (coord_to_indices col row).2 (-d.1) (-d.2) stone)) = some d0) :
    get_winning_line b col row stone =
      some (((col, row) ::
        (collect_line b (coord_to_indices col row).1 (coord_to_indices col row).2
            d0.1 d0.2 stone ++
         collect_line b (coord_to_indices col row).1 (coord_to_indices col row).2
            (-d0.1) (-d0.2) stone)).take 5) := by
  rw [get_winning_line_eq b col row stone hcw, hfind]
  rfl

/-- C2: `get_winning_line` is `none` exactly when `check_win` is false;
when it returns a line, that line has exactly 5 coordinates and equals the
first five entries of: placed cell, then positive-direction same-owner
neighbours in increasing distance, then negative-direction neighbours in
increasing distance, for a winning direction (overlines are cut to five). -/
theorem get_winning_line_spec (b : GomokuBoard) (col : Char) (row : Int)
    (stone : Char) :
    (get_winning_line b col row stone = none ↔ check_win b col row stone = false) ∧
    (∀ L, get_winning_line b col row stone = some L →
      L.length = 5 ∧ ∃ d ∈ directions, wins_spec b stone col row d ∧
        L = (spec_line b stone col row d).take 5) := by
  constructor
  · constructor
    · intro hnone
      cases hb : check_win b col row stone
      · rfl
      · exfalso
        have hval := check_win_valid b col row stone hb
        obtain ⟨d, hdmem, hw⟩ := (check_win_any b col row stone hval).mp hb
        rw [get_winning_line_eq b col row stone hb, Option.map_eq_none',
          List.find?_eq_none] at hnone
        exact absurd hw (by simpa using hnone d hdmem)
    · intro hfalse
      rw [get_winning_line, if_pos (by simp [hfalse])]
  · intro L hL
    have hcw : check_win b col row stone = true := by
      cases hb : check_win b col row stone
      · rw [get_winning_line, if_pos (by simp [hb])] at hL
        cases hL
      · rfl
    rw [get_winning_line_eq b col row stone hcw, Option.map_eq_some'] at hL
    obtain ⟨d, hfind, hLdef⟩ := hL
    have hdmem := List.mem_of_find?_eq_some hfind
    have hpd : 5 ≤ 1 + count_consecutive b (coord_to_indices col row).1
          (coord_to_indices col row).2 d.1 d.2 stone
        + count_consecutive b (coord_to_indices col row).1
          (coord_to_indices col row).2 (-d.1) (-d.2) stone := by
      simpa using List.find?_some hfind
    have hLdef2 : ((col, row) ::
        (collect_line b (coord_to_indices col row).1 (coord_to_indices col row).2
            d.1 d.2 stone ++
         collect_line b (coord_to_indices col row).1 (coord_to_indices col row).2
            (-d.1) (-d.2) stone)).take 5 = L := hLdef
    refine ⟨?_, d, hdmem, (wins_spec_iff_count b col row stone d hdmem).mpr hpd, ?_⟩
    · rw [← hLdef2, List.length_take]
      simp only [List.length_cons, List.length_append, collect_line_length]
      omega
    · rw [← hLdef2, line_eq_spec_line b col row stone d hdmem]

/-- Board with an overline of six black stones on C8–H8. -/
def overline_board : GomokuBoard :=
  { board := fun r c => if r = 7 ∧ 2 ≤ c ∧ c ≤ 7 then 'B' else '.',
    move_history := [] }

/-- C2 witness: on the six-stone overline C8–H8, the F8 query returns
exactly the five coordinates F8, G8, H8, E8, D8 (C8 is truncated away). -/
theorem get_winning_line_spec_witness :
    get_winning_line overline_board 'F' 8 'B'
        = some [('F', 8), ('G', 8), ('H', 8), ('E', 8), ('D', 8)] ∧
      ([('F', 8), ('G', 8), ('H', 8), ('E', 8), ('D', 8)] :
        List (Char × Int)).length = 5 :=
  have hL : get_winning_line overline_board 'F' 8 'B'
      = some [('F', 8), ('G', 8), ('H', 8), ('E', 8), ('D', 8)] := by decide
  ⟨hL, ((get_winning_line_spec overline_board 'F' 8 'B').2 _ hL).1⟩

/-- C3: when a move completes winning runs in more than one direction,
`get_winning_line` reports the line of the first satisfying direction in
the declared order horizontal, vertical, diagonal-down, diagonal-up: the
direction list splits as `pre ++ d0 :: post` with no direction of `pre`
winning, `d0` winning, and the returned line built from `d0`. -/
theorem get_winning_line_tiebreak (b : GomokuBoard) (col : Char) (row : Int)
    (stone : Char)
    (hval : validate_coordinates col row = true)
    (hmulti : 2 ≤ (directions.filter fun d =>
      decide (wins_spec b stone col row d)).length) :
    ∃ d0 pre post, directions = pre ++ d0 :: post ∧
      wins_spec b stone col row d0 ∧
      (∀ d ∈ pre, ¬ wins_spec b stone col row d) ∧
      get_winning_line b col row stone
        = some ((spec_line b stone col row d0).take 5) := by
  obtain ⟨x, hx⟩ := List.exists_mem_of_length_pos (show 0 < (directions.filter fun d =>
    decide (wins_spec b stone col row d)).length by omega)
  have hx2 := List.mem_filter.mp hx
  have hxmem : x ∈ directions := hx2.1
  have hxw : wins_spec b stone col row x := by simpa using hx2.2
  have hcw : check_win b col row stone = true :=
    (check_win_any b col row stone hval).mpr
      ⟨x, hxmem, (wins_spec_iff_count b col row stone x hxmem).mp hxw⟩
  have hfindsome : (directions.find? fun d =>
      decide (5 ≤ 1 + count_consecutive b (coord_to_indices col row).1
          (coord_to_indices col row).2 d.1 d.2 stone
        + count_consecutive b (coord_to_indices col row).1
          (coord_to_indices col row).2 (-d.1) (-d.2) stone)).isSome = true :=
    List.find?_isSome.mpr ⟨x, hxmem,
      by simpa using (wins_spec_iff_count b col row stone x hxmem).mp hxw⟩
  obtain ⟨d0, hfind⟩ := Option.isSome_iff_exists.mp hfindsome
  obtain ⟨pre, post, hsplit, hpd0, hpre⟩ := find_eq_some_split _ directions d0 hfind
  have hd0mem : d0 ∈ directions := List.mem_of_find?_eq_some hfind
  refine ⟨d0, pre, post, hsplit,
    (wins_spec_iff_count b col row stone d0 hd0mem).mpr (by simpa using hpd0),
    ?_, ?_⟩
  · intro d hdpre hws
    have hdmem : d ∈ directions := by
      rw [hsplit]; exact List.mem_append.mpr (Or.inl hdpre)
    exact absurd ((wins_spec_iff_count b col row stone d hdmem).mp hws)
      (by simpa using hpre d hdpre)
  · rw [get_winning_line_of_find b col row stone d0 hcw hfind,
      line_eq_spec_line b col row stone d0 hd0mem]

/-- Board where F8 completes both a horizontal line D8–H8 and a vertical
line F6–F10. -/
def cross_board : GomokuBoard :=
  { board := fun r c =>
      if (r = 7 ∧ 3 ≤ c ∧ c ≤ 7) ∨ (c = 5 ∧ 5 ≤ r ∧ r ≤ 9) then 'B' else '.',
    move_history := [] }

/-- C3 witness: on the cross-shaped board, F8 for black wins both
horizontally and vertically, and the tie-break statement is realized. -/
theorem get_winning_line_tiebreak_witness :
    ∃ d0 pre post, directions = pre ++ d0 :: post ∧
      wins_spec cross_board 'B' 'F' 8 d0 ∧
      (∀ d ∈ pre, ¬ wins_spec cross_board 'B' 'F' 8 d) ∧
      get_winning_line cross_board 'F' 8 'B'
        = some ((spec_line cross_board 'B' 'F' 8 d0).take 5) :=
  get_winning_line_tiebreak cross_board 'F' 8 'B' (by decide) (by decide)

lemma place_stone_mono (b : GomokuBoard) (col : Char) (row : Int) (stone : Char)
    (r c : Int) (h : b.board r c ≠ '.') :
    (b.place_stone col row stone).1.board r c = b.board r c := by
  by_cases hvm : (b.is_valid_move col row).1 = true
  · by_cases hst : (['B', 'W'].contains stone) = true
    · rw [GomokuBoard.place_stone, if_neg (by simp [hvm]), if_neg (by simp only [hst]; simp)]
      show (if r = (coord_to_indices col row).1 ∧ c = (coord_to_indices col row).2
        then stone else b.board r c) = b.board r c
      rw [if_neg]
      rintro ⟨rfl, rfl⟩
      exact h ((is_valid_move_fst b col row).mp hvm).2
    · rw [GomokuBoard.place_stone, if_neg (by simp [hvm]), if_pos (by simpa using hst)]
  · simp only [Bool.not_eq_true] at hvm
    rw [GomokuBoard.place_stone, if_pos (by simp [hvm])]

lemma place_stone_log (b : GomokuBoard) (col : Char) (row : Int) (stone : Char) :
    ∃ t, (b.place_stone col row stone).1.move_history = b.move_history ++ t := by
  by_cases hvm : (b.is_valid_move col row).1 = true
  · by_cases hst : (['B', 'W'].contains stone) = true
    · exact ⟨[(col, row, stone)], by
        rw [GomokuBoard.place_stone, if_neg (by simp [hvm]), if_neg (by simp only [hst]; simp)]⟩
    · exact ⟨[], by
        rw [GomokuBoard.place_stone, if_neg (by simp [hvm]), if_pos (by simpa using hst)]
        simp⟩
  · refine ⟨[], ?_⟩
    simp only [Bool.not_eq_true] at hvm
    rw [GomokuBoard.place_stone, if_pos (by simp [hvm])]
    simp

lemma occupied_count_update (b b2 : GomokuBoard) (ri ci : Int) (stone : Char)
    (hb2 : b2.board = fun r c => if r = ri ∧ c = ci then stone else b.board r c)
    (hri : 0 ≤ ri) (hri2 : ri < 15) (hci : 0 ≤ ci) (hci2 : ci < 15)
    (hold : b.board ri ci = '.') (hstone : stone ≠ '.') :
    occupied_count b2 = occupied_count b + 1 := by
  rw [occupied_count, occupied_count]
  have hfilter : (((Finset.range 15) ×ˢ (Finset.range 15)).filter
      (fun p => b2.board (p.1 : Int) (p.2 : Int) ≠ '.'))
      = insert (ri.toNat, ci.toNat)
        (((Finset.range 15) ×ˢ (Finset.range 15)).filter
          (fun p => b.board (p.1 : Int) (p.2 : Int) ≠ '.')) := by
    ext q
    simp only [Finset.mem_filter, Finset.mem_insert, Finset.mem_product,
      Finset.mem_range, hb2]
    constructor
    · rintro ⟨⟨hq1, hq2⟩, hne⟩
      by_cases heq : (q.1 : Int) = ri ∧ (q.2 : Int) = ci
      · left
        have h1 : q.1 = ri.toNat := by omega
        have h2 : q.2 = ci.toNat := by omega
        exact Prod.ext h1 h2
      · right
        refine ⟨⟨hq1, hq2⟩, ?_⟩
        rwa [if_neg heq] at hne
    · rintro (rfl | ⟨⟨hq1, hq2⟩, hne⟩)
      · refine ⟨⟨by omega, by omega⟩, ?_⟩
        rw [if_pos ⟨Int.toNat_of_nonneg hri, Int.toNat_of_nonneg hci⟩]
        exact hstone
      · have hnc : ¬((q.1 : Int) = ri ∧ (q.2 : Int) = ci) := by
          rintro ⟨e1, e2⟩
          rw [e1, e2] at hne
          exact hne hold
        exact ⟨⟨hq1, hq2⟩, by rw [if_neg hnc]; exact hne⟩
  rw [hfilter, Finset.card_insert_of_not_mem]
  simp only [Finset.mem_filter, not_and, Decidable.not_not]
  intro _
  rw [Int.toNat_of_nonneg hri, Int.toNat_of_nonneg hci]
  exact hold

lemma place_stone_count (b : GomokuBoard) (col : Char) (row : Int) (stone : Char)
    (hinv : occupied_count b = b.move_history.length) :
    occupied_count (b.place_stone col row stone).1
      = (b.place_stone col row stone).1.move_history.length := by
  by_cases hvm : (b.is_valid_move col row).1 = true
  · by_cases hst : (['B', 'W'].contains stone) = true
    · have hve := (is_valid_move_fst b col row).mp hvm
      have hbounds := coord_indices_bounds col row hve.1
      have hstone : stone ≠ '.' := by
        have hmem : stone ∈ (['B', 'W'] : List Char) := by simpa using hst
        rcases List.mem_cons.mp hmem with rfl | hmem2
        · decide
        · rcases List.mem_cons.mp hmem2 with rfl | hmem3
          · decide
          · cases hmem3
      have hplace : (b.place_stone col row stone).1 =
          { board := fun r c =>
              if r = (coord_to_indices col row).1 ∧ c = (coord_to_indices col row).2
              then stone else b.board r c,
            move_history := b.move_history ++ [(col, row, stone)] } := by
        rw [GomokuBoard.place_stone, if_neg (by simp [hvm]), if_neg (by simp only [hst]; simp)]
      rw [hplace,
        occupied_count_update b _ (coord_to_indices col row).1
          (coord_to_indices col row).2 stone rfl hbounds.1 hbounds.2.1
          hbounds.2.2.1 hbounds.2.2.2 hve.2 hstone]
      simp [hinv]
    · have hsame : (b.place_stone col row stone).1 = b := by
        rw [GomokuBoard.place_stone, if_neg (by simp [hvm]), if_pos (by simpa using hst)]
      rw [hsame]
      exact hinv
  · have hsame : (b.place_stone col row stone).1 = b := by
      simp only [Bool.not_eq_true] at hvm
      rw [GomokuBoard.place_stone, if_pos (by simp [hvm])]
    rw [hsame]
    exact hinv

lemma apply_moves_count (ms : List (Char × Int × Char)) :
    ∀ b : GomokuBoard, occupied_count b = b.move_history.length →
      occupied_count (apply_moves b ms) = (apply_moves b ms).move_history.length := by
  induction ms with
  | nil => intro b h; exact h
  | cons m ms ih =>
    intro b h
    exact ih _ (place_stone_count b m.1 m.2.1 m.2.2 h)

/-- C6: in every board state reachable from the empty board by placement
calls, the number of occupied cells equals the move-log length; moreover
one further placement call never changes an already-owned cell (no revert,
no owner change) and only ever appends to the move log (the existing
prefix is untouched). -/
theorem reachable_invariants (ms : List (Char × Int × Char)) :
    occupied_count (apply_moves GomokuBoard.init ms)
        = (apply_moves GomokuBoard.init ms).move_history.length ∧
    (∀ (col : Char) (row : Int) (stone : Char) (r c : Int),
      (apply_moves GomokuBoard.init ms).board r c ≠ '.' →
      ((apply_moves GomokuBoard.init ms).place_stone col row stone).1.board r c
        = (apply_moves GomokuBoard.init ms).board r c) ∧
    (∀ (col : Char) (row : Int) (stone : Char),
      ∃ t, ((apply_moves GomokuBoard.init ms).place_stone col row stone).1.move_history
        = (apply_moves GomokuBoard.init ms).move_history ++ t) := by
  refine ⟨apply_moves_count ms GomokuBoard.init (by decide), ?_, ?_⟩
  · intro col row stone r c h
    exact place_stone_mono _ col row stone r c h
  · intro col row stone
    exact place_stone_log _ col row stone

/-- C6 witness: after playing H8, the occupied count matches the log
length, and a further placement attempt leaves the H8 cell untouched. -/
theorem reachable_invariants_witness :
    occupied_count (apply_moves GomokuBoard.init [('H', 8, 'B')])
        = (apply_moves GomokuBoard.init [('H', 8, 'B')]).move_history.length ∧
      ((apply_moves GomokuBoard.init [('H', 8, 'B')]).place_stone 'A' 1 'W').1.board 7 7
        = (apply_moves GomokuBoard.init [('H', 8, 'B')]).board 7 7 :=
  ⟨(reachable_invariants [('H', 8, 'B')]).1,
   (reachable_invariants [('H', 8, 'B')]).2.1 'A' 1 'W' 7 7 (by decide)⟩
